import Mathlib

/-!
Verification of `pa-permission-group-analyzer` (src/main.py).

The program is a single linear pipeline: parse a group file into a
group → members mapping, invert it into a user → groups mapping, filter
users by a minimum group count, and render one report line per user.

Python dictionaries are modelled as association lists in insertion
order; `dict[k] = v` updates the first entry with key `k` in place (the
key keeps its original position) or appends a fresh entry at the end,
which is exactly Python's ordered-dict semantics.  File and logging
effects are modelled explicitly: the parser returns its error log
alongside the mapping, the report writer returns the lines it sent to
each channel, and `main` is a function from arguments and an
environment (file existence / openability / writability) to an exit
code plus all observable output.
-/

namespace PA

/-- Model of `GroupMembership`: group name → member list, in insertion order
(the value type of `parse_group_file` in src/main.py). -/
abbrev GroupMembership := List (String × List String)

/-- Python ordered-dict assignment `d[k] = v`: overwrite the first entry
holding key `k` in place, else append `(k, v)` at the end. -/
def dictInsert (d : GroupMembership) (k : String) (v : List String) : GroupMembership :=
  match d with
  | [] => [(k, v)]
  | (k', v') :: rest => if k' = k then (k, v) :: rest else (k', v') :: dictInsert rest k v

/-- The ASCII whitespace characters Python's `str.strip()` removes. -/
def isPySpace (c : Char) : Bool :=
  c == ' ' || c == '\t' || c == '\n' || c == '\r' || c == '\x0b' || c == '\x0c'

/-- Python `str.strip()` on a character list: drop whitespace from both
ends. -/
def pyStripList (l : List Char) : List Char :=
  ((l.dropWhile isPySpace).reverse.dropWhile isPySpace).reverse

/-- Python `str.strip()`. -/
def pyStrip (s : String) : String := ⟨pyStripList s.data⟩

/-- Python `s.split(sep)` for a one-character separator: keeps empty
pieces, and the split of the empty string is `[[]]`. -/
def splitOnChar (sep : Char) : List Char → List (List Char)
  | [] => [[]]
  | c :: cs =>
      let r := splitOnChar sep cs
      if c = sep then [] :: r
      else
        match r with
        | [] => [[c]]
        | piece :: ps => (c :: piece) :: ps

/-- Python `s.split(sep, 1)` for a one-character separator: `none` when
`sep` does not occur (the `ValueError` branch of src/main.py line 72),
otherwise the part before the first `sep` and everything after it. -/
def splitFirstChar (sep : Char) : List Char → Option (List Char × List Char)
  | [] => none
  | c :: cs =>
      if c = sep then some ([], cs)
      else (splitFirstChar sep cs).map (fun p => (c :: p.1, p.2))

/-- Outcome of the parser's loop body for one raw line of the file. -/
inductive LineResult where
  | skip : LineResult
  | malformed : String → LineResult
  | entry : String → List String → LineResult
deriving DecidableEq

/-- The loop body of `parse_group_file` (src/main.py lines 66-77):
strip the line, skip blanks and `#` comments, split on the first `:`
(no `:` is a malformed line), split the rest on `,`, strip each
candidate user and drop the ones that become empty, strip the group
name. -/
def parse_line_core (line : List Char) : LineResult :=
  match line with
  | [] => .skip
  | c :: cs =>
      if c = '#' then .skip
      else
        match splitFirstChar ':' (c :: cs) with
        | none => .malformed ⟨c :: cs⟩
        | some (group_name, users_str) =>
            .entry ⟨pyStripList group_name⟩
              ((((splitOnChar ',' users_str).map pyStripList).filter
                  (fun u => u ≠ [])).map (fun u => (⟨u⟩ : String)))

/-- The loop body applied to a raw line: strip first, then classify. -/
def parse_line (rawLine : String) : LineResult :=
  parse_line_core (pyStripList rawLine.data)

/-- One step of `parse_group_file`'s fold over the file's lines: the
state is the mapping built so far together with the error log. -/
def parse_step (st : GroupMembership × List String) (rawLine : String) :
    GroupMembership × List String :=
  match parse_line rawLine with
  | .skip => st
  | .malformed line => (st.1, st.2 ++ ["Invalid line format in group file: " ++ line])
  | .entry g users => (dictInsert st.1 g users, st.2)

/-- Model of `parse_group_file` (src/main.py lines 52-82) on an already-opened
file, given as its list of lines: returns the group → members mapping
and the error messages logged for malformed lines. -/
def parse_group_file (lines : List String) : GroupMembership × List String :=
  lines.foldl parse_step ([], [])

/-- Python `user_to_groups[user].append(group)` on a `defaultdict(list)`
modelled as an association list: append `g` to the first entry with key
`u`, or create the entry `(u, [g])` at the end on first sight of `u`. -/
def appendGroup (acc : List (String × List String)) (u g : String) :
    List (String × List String) :=
  match acc with
  | [] => [(u, [g])]
  | (u', gs) :: rest => if u' = u then (u', gs ++ [g]) :: rest else (u', gs) :: appendGroup rest u g

/-- The inversion loop of `analyze_user_groups` (src/main.py lines
100-102): fold over the groups in stored order and over each member
list left to right. -/
def invertGroups (gm : GroupMembership) : List (String × List String) :=
  gm.foldl (fun acc p => p.2.foldl (fun a u => appendGroup a u p.1) acc) []

/-- Model of `analyze_user_groups` (src/main.py lines 85-109): invert the
group → members mapping and keep the users whose group list has length
at least `min_groups` (a Python `int`, hence `Int` here). -/
def analyze_user_groups (gm : GroupMembership) (min_groups : Int) :
    List (String × List String) :=
  (invertGroups gm).filter (fun p => decide (min_groups ≤ (p.2.length : Int)))

/-- Python join with separator `", "`. -/
def joinCommaSpace : List String → String
  | [] => ""
  | [s] => s
  | s :: rest => s ++ ", " ++ joinCommaSpace rest

/-- The f-string of src/main.py line 123:
`User: {user}, Groups: {', '.join(groups)}`. -/
def renderLine (p : String × List String) : String :=
  "User: " ++ p.1 ++ ", Groups: " ++ joinCommaSpace p.2

/-- Observable effects of `write_output`: lines printed to the console,
lines written to the output file (if any), error and info log
messages. -/
structure WriteResult where
  console : List String
  fileLines : Option (List String)
  errors : List String
  infos : List String
deriving DecidableEq

/-- Model of `write_output` (src/main.py lines 112-135).  `writable` models
whether `open(output_file, "w")` and the writes succeed; on failure the
error is logged and nothing else happens: no console fallback. -/
def write_output (user_to_groups : List (String × List String))
    (output_file : Option String) (writable : Bool) : WriteResult :=
  let output_lines := user_to_groups.map renderLine
  match output_file with
  | some path =>
      if writable then
        { console := [], fileLines := some output_lines, errors := [],
          infos := ["Analysis results written to: " ++ path] }
      else
        { console := [], fileLines := none,
          errors := ["Error writing to output file"], infos := [] }
  | none =>
      { console := output_lines, fileLines := none, errors := [], infos := [] }

/-- The parsed command-line arguments (src/main.py lines 22-49):
`--group-file` (required), `--output` (optional), `--min-groups`
(default 2). -/
structure Args where
  group_file : String
  output : Option String
  min_groups : Int
deriving DecidableEq

/-- The parts of the outside world `main` consults: whether
`os.path.isfile(group_file)` holds, what `open(group_file)` yields at
parse time (`none` = `FileNotFoundError`), and whether the output file
can be opened and written. -/
structure Env where
  fileExists : Bool
  fileContent : Option (List String)
  outputWritable : Bool

/-- Everything observable about one run of `main`: the exit code, the
report lines printed to the console, the report lines written to the
output file, and the error log. -/
structure RunResult where
  exitCode : Nat
  console : List String
  fileLines : Option (List String)
  errors : List String
deriving DecidableEq

/-- Model of `main` (src/main.py lines 138-154): validate that the group file
exists and `min_groups > 0` (each failure logs an error and exits 1),
then parse (a `FileNotFoundError` at open time logs and exits 1), then
analyze, then write the report; a write failure does not change the
exit code, which is 0 on this path. -/
def main_run (args : Args) (env : Env) : RunResult :=
  if ¬ env.fileExists then
    { exitCode := 1, console := [], fileLines := none,
      errors := ["Group file does not exist: " ++ args.group_file] }
  else if args.min_groups ≤ 0 then
    { exitCode := 1, console := [], fileLines := none,
      errors := ["Minimum groups must be a positive integer."] }
  else
    match env.fileContent with
    | none =>
        { exitCode := 1, console := [], fileLines := none,
          errors := ["Group file not found: " ++ args.group_file] }
    | some lines =>
        let parsed := parse_group_file lines
        let result := analyze_user_groups parsed.1 args.min_groups
        let w := write_output result args.output env.outputWritable
        { exitCode := 0, console := w.console, fileLines := w.fileLines,
          errors := parsed.2 ++ w.errors }

/-- First-match lookup of the value stored under key `u` in an
association list (`[]` when absent): what Python's `dict[u]` reads. -/
def getGroups (u : String) : List (String × List String) → List String
  | [] => []
  | (v, gs) :: rest => if v = u then gs else getGroups u rest

/-- First-match lookup as an `Option`, to state presence/absence of a
key. -/
def lookupGroup (g : String) : GroupMembership → Option (List String)
  | [] => none
  | (k, v) :: rest => if k = g then some v else lookupGroup g rest

/-- The group name of every occurrence of user `u`, traversing
`gm` in stored order and each member list left to right (one entry per
occurrence, so a user listed twice in one group contributes that group
twice). -/
def occurrenceGroups (gm : GroupMembership) (u : String) : List String :=
  gm.flatMap (fun p => ((p.2.filter (fun v => decide (v = u))).map (fun _ => p.1)))

/-- The distinct elements of a list in order of first appearance,
skipping those already in `seen`. -/
def firstSeen (seen : List String) : List String → List String
  | [] => []
  | u :: us => if u ∈ seen then firstSeen seen us else u :: firstSeen (u :: seen) us

/-- Whether the parser's loop body hits the `ValueError` branch on this
raw line. -/
def isMalformedLine (l : String) : Bool :=
  match parse_line l with
  | .malformed _ => true
  | _ => false

/-- Whether the parser's loop body stores an entry under group name `g`
for this raw line. -/
def isEntryFor (g : String) (l : String) : Bool :=
  match parse_line l with
  | .entry g' _ => g' = g
  | _ => false

/-- The mapping component of the parser's loop body (the error log left
aside). -/
def parse_dict_step (d : GroupMembership) (rawLine : String) : GroupMembership :=
  match parse_line rawLine with
  | .entry g users => dictInsert d g users
  | _ => d

/-! Lemmas about `appendGroup` and `invertGroups`. -/

theorem getGroups_appendGroup (acc : List (String × List String)) (u v g : String) :
    getGroups u (appendGroup acc v g) =
      if v = u then getGroups u acc ++ [g] else getGroups u acc := by
  induction acc with
  | nil =>
      by_cases h : v = u <;> simp [appendGroup, getGroups, h]
  | cons p rest ih =>
      obtain ⟨u', gs⟩ := p
      by_cases h1 : u' = v
      · subst h1
        by_cases h2 : u' = u
        · subst h2
          simp [appendGroup, getGroups]
        · simp [appendGroup, getGroups, h2]
      · by_cases h2 : u' = u
        · subst h2
          have h3 : ¬ v = u' := fun h => h1 h.symm
          simp [appendGroup, getGroups, h1, h3]
        · simp [appendGroup, getGroups, h1, h2, ih]

theorem keys_appendGroup (acc : List (String × List String)) (v g : String) :
    (appendGroup acc v g).map Prod.fst =
      if v ∈ acc.map Prod.fst then acc.map Prod.fst else acc.map Prod.fst ++ [v] := by
  induction acc with
  | nil => simp [appendGroup]
  | cons p rest ih =>
      obtain ⟨u', gs⟩ := p
      by_cases h1 : u' = v
      · subst h1
        simp [appendGroup]
      · have h1' : ¬ v = u' := fun h => h1 h.symm
        by_cases h2 : v ∈ rest.map Prod.fst
        · simp [appendGroup, getGroups, h1, h1', h2, ih]
        · simp [appendGroup, getGroups, h1, h1', h2, ih]

theorem values_nonempty_appendGroup (acc : List (String × List String)) (u g : String)
    (h : ∀ q ∈ acc, q.2 ≠ []) : ∀ q ∈ appendGroup acc u g, q.2 ≠ [] := by
  induction acc with
  | nil => simp [appendGroup]
  | cons p rest ih =>
      obtain ⟨u', gs⟩ := p
      intro q hq
      by_cases h1 : u' = u
      · simp only [appendGroup, if_pos h1] at hq
        rcases List.mem_cons.mp hq with hq' | hq'
        · subst hq'; simp
        · exact h q (List.mem_cons_of_mem _ hq')
      · simp only [appendGroup, if_neg h1] at hq
        rcases List.mem_cons.mp hq with hq' | hq'
        · subst hq'; exact h (u', gs) (List.mem_cons_self _ _)
        · exact ih (fun q hq => h q (List.mem_cons_of_mem _ hq)) q hq'

theorem getGroups_foldl_append (us : List String) (g : String) :
    ∀ (acc : List (String × List String)) (u : String),
      getGroups u (us.foldl (fun a w => appendGroup a w g) acc) =
        getGroups u acc ++ ((us.filter (fun v => decide (v = u))).map (fun _ => g)) := by
  induction us with
  | nil => simp
  | cons w ws ih =>
      intro acc u
      simp only [List.foldl_cons]
      rw [ih, getGroups_appendGroup]
      by_cases h : w = u <;> simp [h, List.filter_cons]

theorem getGroups_invertGroups (gm : GroupMembership) (u : String) :
    getGroups u (invertGroups gm) = occurrenceGroups gm u := by
  suffices h : ∀ acc, getGroups u
      (gm.foldl (fun acc p => p.2.foldl (fun a w => appendGroup a w p.1) acc) acc) =
      getGroups u acc ++ occurrenceGroups gm u by
    simpa [invertGroups, getGroups] using h []
  induction gm with
  | nil => simp [occurrenceGroups]
  | cons p rest ih =>
      intro acc
      simp only [List.foldl_cons]
      rw [ih, getGroups_foldl_append]
      simp [occurrenceGroups]

/-- The effect of one user occurrence on the key list of the inversion
accumulator: keep the keys if the user was already seen, else append the
user at the end. -/
def insStep (ks : List String) (u : String) : List String :=
  if u ∈ ks then ks else ks ++ [u]

theorem keys_foldl_append (us : List String) (g : String) :
    ∀ (acc : List (String × List String)),
      ((us.foldl (fun a w => appendGroup a w g) acc).map Prod.fst) =
        us.foldl insStep (acc.map Prod.fst) := by
  induction us with
  | nil => intro acc; rfl
  | cons w ws ih =>
      intro acc
      simp only [List.foldl_cons]
      rw [ih, keys_appendGroup]
      rfl

theorem keys_invertGroups (gm : GroupMembership) :
    (invertGroups gm).map Prod.fst = (gm.flatMap Prod.snd).foldl insStep [] := by
  suffices h : ∀ acc : List (String × List String),
      ((gm.foldl (fun acc p => p.2.foldl (fun a w => appendGroup a w p.1) acc) acc).map Prod.fst) =
      (gm.flatMap Prod.snd).foldl insStep (acc.map Prod.fst) by
    simpa [invertGroups] using h []
  induction gm with
  | nil => simp
  | cons p rest ih =>
      intro acc
      simp only [List.foldl_cons, List.flatMap_cons, List.foldl_append]
      rw [ih, keys_foldl_append]

theorem firstSeen_congr {s1 s2 : List String} (h : ∀ x, x ∈ s1 ↔ x ∈ s2) :
    ∀ us : List String, firstSeen s1 us = firstSeen s2 us := by
  intro us
  induction us generalizing s1 s2 with
  | nil => rfl
  | cons u us ih =>
      simp only [firstSeen]
      by_cases hu : u ∈ s1
      · rw [if_pos hu, if_pos ((h u).mp hu), ih h]
      · rw [if_neg hu, if_neg (fun hc => hu ((h u).mpr hc))]
        congr 1
        exact ih (fun x => by simp [List.mem_cons, h x])

theorem foldl_insStep_eq_firstSeen (us : List String) :
    ∀ ks, us.foldl insStep ks = ks ++ firstSeen ks us := by
  induction us with
  | nil => simp [firstSeen]
  | cons u us ih =>
      intro ks
      simp only [List.foldl_cons, firstSeen, insStep]
      by_cases hu : u ∈ ks
      · rw [if_pos hu, if_pos hu, ih]
      · rw [if_neg hu, if_neg hu, ih]
        rw [firstSeen_congr
          (show ∀ x, x ∈ ks ++ [u] ↔ x ∈ u :: ks from fun x => by simp [List.mem_cons, or_comm]) us]
        simp

theorem firstSeen_nodup_aux (us : List String) :
    ∀ seen, (firstSeen seen us).Nodup ∧ ∀ x ∈ firstSeen seen us, x ∉ seen := by
  induction us with
  | nil => simp [firstSeen]
  | cons u us ih =>
      intro seen
      by_cases hu : u ∈ seen
      · simpa [firstSeen, hu] using ih seen
      · simp only [firstSeen, if_neg hu]
        obtain ⟨hnd, hni⟩ := ih (u :: seen)
        refine ⟨List.nodup_cons.mpr ⟨fun hc => hni u hc (List.mem_cons_self _ _), hnd⟩, ?_⟩
        intro x hx
        rcases List.mem_cons.mp hx with rfl | hx'
        · exact hu
        · exact fun hxs => hni x hx' (List.mem_cons_of_mem _ hxs)

theorem mem_firstSeen (us : List String) :
    ∀ seen x, x ∈ firstSeen seen us ↔ (x ∈ us ∧ x ∉ seen) := by
  induction us with
  | nil => simp [firstSeen]
  | cons u us ih =>
      intro seen x
      by_cases hu : u ∈ seen
      · simp only [firstSeen, if_pos hu, ih, List.mem_cons]
        constructor
        · rintro ⟨hx, hxs⟩
          exact ⟨Or.inr hx, hxs⟩
        · rintro ⟨hx | hx, hxs⟩
          · exact absurd (hx ▸ hu) hxs
          · exact ⟨hx, hxs⟩
      · simp only [firstSeen, if_neg hu, List.mem_cons, ih]
        constructor
        · rintro (rfl | ⟨hx, hxs⟩)
          · exact ⟨Or.inl rfl, hu⟩
          · exact ⟨Or.inr hx, fun hc => hxs (Or.inr hc)⟩
        · rintro ⟨hx | hx, hxs⟩
          · exact Or.inl hx
          · by_cases hxu : x = u
            · exact Or.inl hxu
            · exact Or.inr ⟨hx, fun hc => hc.elim hxu hxs⟩

theorem keys_invertGroups_firstSeen (gm : GroupMembership) :
    (invertGroups gm).map Prod.fst = firstSeen [] (gm.flatMap Prod.snd) := by
  rw [keys_invertGroups, foldl_insStep_eq_firstSeen]
  simp

theorem keys_invertGroups_nodup (gm : GroupMembership) :
    ((invertGroups gm).map Prod.fst).Nodup := by
  rw [keys_invertGroups_firstSeen]
  exact (firstSeen_nodup_aux _ []).1

theorem mem_keys_invertGroups (gm : GroupMembership) (u : String) :
    u ∈ (invertGroups gm).map Prod.fst ↔ ∃ p ∈ gm, u ∈ p.2 := by
  rw [keys_invertGroups_firstSeen, mem_firstSeen]
  simp [List.mem_flatMap]

theorem mem_getGroups_of_mem_keys (l : List (String × List String)) (u : String)
    (h : u ∈ l.map Prod.fst) : (u, getGroups u l) ∈ l := by
  induction l with
  | nil => simp at h
  | cons p rest ih =>
      obtain ⟨k, v⟩ := p
      by_cases hk : k = u
      · subst hk
        simp [getGroups]
      · simp only [List.map_cons, List.mem_cons] at h
        rcases h with h | h
        · exact absurd h.symm hk
        · simp only [getGroups, if_neg hk]
          exact List.mem_cons_of_mem _ (ih h)

theorem getGroups_of_mem_of_nodup (l : List (String × List String))
    (hnd : (l.map Prod.fst).Nodup) (u : String) (gs : List String)
    (h : (u, gs) ∈ l) : getGroups u l = gs := by
  induction l with
  | nil => simp at h
  | cons p rest ih =>
      obtain ⟨k, v⟩ := p
      simp only [List.map_cons, List.nodup_cons] at hnd
      rcases List.mem_cons.mp h with h' | h'
      · obtain ⟨h1, h2⟩ := Prod.mk.injEq .. ▸ (by exact congrArg id h' : (u, gs) = (k, v))
        simp [getGroups, h1.symm, h2]
      · have hku : ¬ k = u := by
          intro hk
          exact hnd.1 (hk ▸ (List.mem_map_of_mem Prod.fst h' : (u, gs).1 ∈ rest.map Prod.fst))
        simp only [getGroups, if_neg hku]
        exact ih hnd.2 h'

theorem values_nonempty_foldl (us : List String) (g : String) :
    ∀ acc : List (String × List String), (∀ q ∈ acc, q.2 ≠ []) →
      ∀ q ∈ us.foldl (fun a w => appendGroup a w g) acc, q.2 ≠ [] := by
  induction us with
  | nil => intro acc h; simpa using h
  | cons w ws ih =>
      intro acc h
      simp only [List.foldl_cons]
      exact ih _ (values_nonempty_appendGroup acc w g h)

theorem values_nonempty_invertGroups (gm : GroupMembership) :
    ∀ q ∈ invertGroups gm, q.2 ≠ [] := by
  suffices h : ∀ acc : List (String × List String), (∀ q ∈ acc, q.2 ≠ []) →
      ∀ q ∈ gm.foldl (fun acc p => p.2.foldl (fun a w => appendGroup a w p.1) acc) acc, q.2 ≠ [] by
    exact h [] (by simp)
  induction gm with
  | nil => intro acc h; simpa using h
  | cons p rest ih =>
      intro acc h
      simp only [List.foldl_cons]
      exact ih _ (values_nonempty_foldl p.2 p.1 acc h)

theorem analyze_one_eq_invertGroups (gm : GroupMembership) :
    analyze_user_groups gm 1 = invertGroups gm := by
  unfold analyze_user_groups
  apply List.filter_eq_self.mpr
  intro p hp
  have hne := values_nonempty_invertGroups gm p hp
  have hlen : 1 ≤ p.2.length := Nat.succ_le_of_lt (List.length_pos.mpr hne)
  simpa using (by exact_mod_cast hlen : (1 : Int) ≤ (p.2.length : Int))

theorem countP_eq_one_of_nodup_of_mem (u : String) :
    ∀ l : List String, l.Nodup → u ∈ l →
      l.countP (fun v => decide (v = u)) = 1 := by
  intro l
  induction l with
  | nil => simp
  | cons x rest ih =>
      intro hnd hm
      simp only [List.nodup_cons] at hnd
      by_cases hx : x = u
      · subst hx
        rw [List.countP_cons]
        simp only [decide_eq_true_eq]
        have : rest.countP (fun v => decide (v = x)) = 0 := by
          apply List.countP_eq_zero.mpr
          intro v hv
          simp only [decide_eq_true_eq]
          intro hvx
          exact hnd.1 (hvx ▸ hv)
        simp [this]
      · rcases List.mem_cons.mp hm with h' | h'
        · exact absurd h'.symm hx
        · rw [List.countP_cons]
          simp [hx, ih hnd.2 h']

theorem map_congr_mem {α β : Type} {f g : α → β} :
    ∀ {l : List α}, (∀ a ∈ l, f a = g a) → l.map f = l.map g := by
  intro l
  induction l with
  | nil => simp
  | cons a l ih =>
      intro h
      simp only [List.map_cons]
      rw [h a (List.mem_cons_self a l), ih (fun b hb => h b (List.mem_cons_of_mem _ hb))]

theorem map_filter_eq_of_nodup {α : Type} (f : String × List String → α)
    (p : String × List String → Bool) :
    ∀ l : List (String × List String), (l.map Prod.fst).Nodup →
      (l.filter p).map f =
        ((l.map Prod.fst).filter (fun u => p (u, getGroups u l))).map
          (fun u => f (u, getGroups u l)) := by
  intro l
  induction l with
  | nil => simp
  | cons q rest ih =>
      obtain ⟨k, v⟩ := q
      intro hnd
      simp only [List.map_cons, List.nodup_cons] at hnd
      have hgk : getGroups k ((k, v) :: rest) = v := by simp [getGroups]
      have hrest : ∀ u ∈ rest.map Prod.fst,
          getGroups u ((k, v) :: rest) = getGroups u rest := by
        intro u hu
        have : ¬ k = u := fun h => hnd.1 (h ▸ hu)
        simp [getGroups, this]
      have hfilter : (rest.map Prod.fst).filter
            (fun u => p (u, getGroups u ((k, v) :: rest))) =
          (rest.map Prod.fst).filter (fun u => p (u, getGroups u rest)) := by
        apply List.filter_congr
        intro u hu
        rw [hrest u hu]
      have hmap : ∀ m : List String, (∀ u ∈ m, u ∈ rest.map Prod.fst) →
          m.map (fun u => f (u, getGroups u ((k, v) :: rest))) =
            m.map (fun u => f (u, getGroups u rest)) := by
        intro m hm
        apply map_congr_mem
        intro u hu
        rw [hrest u (hm u hu)]
      cases hpv : p (k, v) with
      | true =>
          have h1 : List.filter p ((k, v) :: rest) = (k, v) :: List.filter p rest := by
            rw [List.filter_cons, if_pos hpv]
          have h2 : List.filter (fun u => p (u, getGroups u ((k, v) :: rest)))
                (k :: List.map Prod.fst rest) =
              k :: List.filter (fun u => p (u, getGroups u ((k, v) :: rest)))
                (List.map Prod.fst rest) := by
            rw [List.filter_cons, if_pos (by rw [hgk]; exact hpv)]
          rw [h1]
          simp only [List.map_cons]
          rw [h2]
          simp only [List.map_cons, hgk]
          rw [hfilter, hmap _ (fun u hu => List.mem_of_mem_filter hu), ih hnd.2]
      | false =>
          have h1 : List.filter p ((k, v) :: rest) = List.filter p rest := by
            rw [List.filter_cons, if_neg (by simp [hpv])]
          have h2 : List.filter (fun u => p (u, getGroups u ((k, v) :: rest)))
                (k :: List.map Prod.fst rest) =
              List.filter (fun u => p (u, getGroups u ((k, v) :: rest)))
                (List.map Prod.fst rest) := by
            rw [List.filter_cons, if_neg (by rw [hgk]; simp [hpv])]
          rw [h1]
          simp only [List.map_cons]
          rw [h2]
          rw [hfilter, hmap _ (fun u hu => List.mem_of_mem_filter hu), ih hnd.2]

/-! Lemmas about the parser. -/

theorem splitFirstChar_eq_none_iff (sep : Char) :
    ∀ cl : List Char, splitFirstChar sep cl = none ↔ sep ∉ cl := by
  intro cl
  induction cl with
  | nil => simp [splitFirstChar]
  | cons c cs ih =>
      by_cases hc : c = sep
      · subst hc
        simp [splitFirstChar]
      · simp only [splitFirstChar, if_neg hc, Option.map_eq_none', ih, List.mem_cons]
        constructor
        · intro h hm
          rcases hm with hm | hm
          · exact hc hm.symm
          · exact h hm
        · intro h hm
          exact h (Or.inr hm)

theorem mem_dropWhile_of_not {p : Char → Bool} {c : Char} (hc : p c = false) :
    ∀ l : List Char, c ∈ l → c ∈ l.dropWhile p := by
  intro l
  induction l with
  | nil => simp
  | cons a as ih =>
      intro hm
      cases ha : p a with
      | true =>
          rw [List.dropWhile_cons_of_pos ha]
          rcases List.mem_cons.mp hm with rfl | hm'
          · rw [hc] at ha; exact absurd ha (by simp)
          · exact ih hm'
      | false =>
          rw [List.dropWhile_cons_of_neg (by simp [ha])]
          exact hm

theorem mem_pyStripList_iff {c : Char} (hc : isPySpace c = false) (l : List Char) :
    c ∈ pyStripList l ↔ c ∈ l := by
  unfold pyStripList
  constructor
  · intro h
    rw [List.mem_reverse] at h
    have h2 := (List.dropWhile_sublist _).mem h
    rw [List.mem_reverse] at h2
    exact (List.dropWhile_sublist _).mem h2
  · intro h
    rw [List.mem_reverse]
    apply mem_dropWhile_of_not hc
    rw [List.mem_reverse]
    exact mem_dropWhile_of_not hc l h

theorem parse_line_malformed_eq (l : String) (s : String)
    (h : parse_line l = .malformed s) : s = pyStrip l := by
  unfold parse_line at h
  rcases hm : pyStripList l.data with _ | ⟨c, cs⟩ <;> rw [hm] at h
  · simp [parse_line_core] at h
  · simp only [parse_line_core] at h
    by_cases hc : c = '#'
    · simp [hc] at h
    · rw [if_neg hc] at h
      rcases hs : splitFirstChar ':' (c :: cs) with _ | ⟨g, rest⟩ <;> simp only [hs] at h
      · simp only [LineResult.malformed.injEq] at h
        rw [← h, pyStrip, hm]
      · simp at h

theorem parse_line_colon_cases (l : String)
    (h1 : pyStripList l.data ≠ [])
    (h2 : (pyStripList l.data).head? ≠ some '#') :
    (':' ∉ l.data → parse_line l = .malformed (pyStrip l)) ∧
    (':' ∈ l.data → ∃ g us, parse_line l = .entry g us) := by
  have hcolon : (':' ∈ pyStripList l.data) ↔ (':' ∈ l.data) :=
    mem_pyStripList_iff (by decide) l.data
  unfold parse_line
  rcases hm : pyStripList l.data with _ | ⟨c, cs⟩
  · exact absurd hm h1
  · rw [hm] at h2 hcolon
    simp only [parse_line_core]
    have hc : ¬ c = '#' := by
      intro hc
      exact h2 (by rw [hc]; rfl)
    rw [if_neg hc]
    constructor
    · intro hno
      have hni : ':' ∉ (c :: cs) := fun hmem => hno (hcolon.mp hmem)
      rw [(splitFirstChar_eq_none_iff ':' (c :: cs)).mpr hni]
      rw [pyStrip, hm]
    · intro hyes
      have hmem : ':' ∈ (c :: cs) := hcolon.mpr hyes
      rcases hs : splitFirstChar ':' (c :: cs) with _ | ⟨g, rest⟩
      · exact absurd ((splitFirstChar_eq_none_iff ':' (c :: cs)).mp hs) (fun hno => hno hmem)
      · exact ⟨_, _, rfl⟩

theorem parse_foldl_errors (lines : List String) :
    ∀ st : GroupMembership × List String,
      (lines.foldl parse_step st).2 =
        st.2 ++ (lines.filter isMalformedLine).map
          (fun l => "Invalid line format in group file: " ++ pyStrip l) := by
  induction lines with
  | nil => simp
  | cons l rest ih =>
      intro st
      simp only [List.foldl_cons, List.filter_cons]
      rcases hl : parse_line l with _ | s | ⟨g, us⟩
      · have hm : isMalformedLine l = false := by simp [isMalformedLine, hl]
        rw [ih]
        simp [parse_step, hl, hm]
      · have hm : isMalformedLine l = true := by simp [isMalformedLine, hl]
        have hs := parse_line_malformed_eq l s hl
        rw [ih]
        simp [parse_step, hl, hm, hs]
      · have hm : isMalformedLine l = false := by simp [isMalformedLine, hl]
        rw [ih]
        simp [parse_step, hl, hm]

theorem parse_foldl_dict (lines : List String) :
    ∀ st : GroupMembership × List String,
      (lines.foldl parse_step st).1 = lines.foldl parse_dict_step st.1 := by
  induction lines with
  | nil => intro st; rfl
  | cons l rest ih =>
      intro st
      simp only [List.foldl_cons]
      rw [ih]
      rcases hl : parse_line l with _ | s | ⟨g, us⟩ <;>
        simp [parse_step, parse_dict_step, hl]

theorem parse_dict_drop_malformed (lines : List String) :
    ∀ d : GroupMembership, lines.foldl parse_dict_step d =
      (lines.filter (fun l => !isMalformedLine l)).foldl parse_dict_step d := by
  induction lines with
  | nil => intro d; rfl
  | cons l rest ih =>
      intro d
      simp only [List.foldl_cons, List.filter_cons]
      rcases hl : parse_line l with _ | s | ⟨g, us⟩
      · have hm : isMalformedLine l = false := by simp [isMalformedLine, hl]
        rw [ih]
        simp [hm]
      · have hm : isMalformedLine l = true := by simp [isMalformedLine, hl]
        have hd : parse_dict_step d l = d := by simp [parse_dict_step, hl]
        rw [hd, ih]
        simp [hm]
      · have hm : isMalformedLine l = false := by simp [isMalformedLine, hl]
        rw [ih]
        simp [hm]

theorem lookupGroup_dictInsert_self (d : GroupMembership) (k : String) (v : List String) :
    lookupGroup k (dictInsert d k v) = some v := by
  induction d with
  | nil => simp [dictInsert, lookupGroup]
  | cons p rest ih =>
      obtain ⟨k', v'⟩ := p
      by_cases h : k' = k
      · simp [dictInsert, lookupGroup, h]
      · simp [dictInsert, lookupGroup, h, ih]

theorem lookupGroup_dictInsert_other (d : GroupMembership) (k g : String) (v : List String)
    (h : k ≠ g) : lookupGroup g (dictInsert d k v) = lookupGroup g d := by
  induction d with
  | nil => simp [dictInsert, lookupGroup, h]
  | cons p rest ih =>
      obtain ⟨k', v'⟩ := p
      by_cases h1 : k' = k
      · subst h1
        simp [dictInsert, lookupGroup, h]
      · simp [dictInsert, lookupGroup, h1, ih]

theorem keys_dictInsert (d : GroupMembership) (k : String) (v : List String) :
    (dictInsert d k v).map Prod.fst =
      if k ∈ d.map Prod.fst then d.map Prod.fst else d.map Prod.fst ++ [k] := by
  induction d with
  | nil => simp [dictInsert]
  | cons p rest ih =>
      obtain ⟨k', v'⟩ := p
      by_cases h1 : k' = k
      · subst h1
        simp [dictInsert]
      · have h1' : ¬ k = k' := fun h => h1 h.symm
        by_cases h2 : k ∈ rest.map Prod.fst
        · simp [dictInsert, h1, h1', h2, ih]
        · simp [dictInsert, h1, h1', h2, ih]

theorem keys_nodup_dictInsert (d : GroupMembership) (hnd : (d.map Prod.fst).Nodup)
    (k : String) (v : List String) : ((dictInsert d k v).map Prod.fst).Nodup := by
  rw [keys_dictInsert]
  by_cases hk : k ∈ d.map Prod.fst
  · simpa [hk] using hnd
  · simp only [hk, if_false]
    simp [List.nodup_append, hnd, hk]

theorem parse_keys_nodup (lines : List String) :
    (((parse_group_file lines).1).map Prod.fst).Nodup := by
  have main : ∀ d : GroupMembership, (d.map Prod.fst).Nodup →
      ((lines.foldl parse_dict_step d).map Prod.fst).Nodup := by
    induction lines with
    | nil => intro d h; simpa using h
    | cons l rest ih =>
        intro d h
        simp only [List.foldl_cons]
        rcases hl : parse_line l with _ | s | ⟨g, us⟩
        · have hd : parse_dict_step d l = d := by simp [parse_dict_step, hl]
          rw [hd]
          exact ih d h
        · have hd : parse_dict_step d l = d := by simp [parse_dict_step, hl]
          rw [hd]
          exact ih d h
        · refine ih _ ?_
          simp only [parse_dict_step, hl]
          exact keys_nodup_dictInsert d h g us
  unfold parse_group_file
  rw [parse_foldl_dict]
  exact main [] (by simp)

theorem lookupGroup_foldl_no_entry (post : List String) (g : String) :
    ∀ d : GroupMembership, (∀ l ∈ post, isEntryFor g l = false) →
      lookupGroup g (post.foldl parse_dict_step d) = lookupGroup g d := by
  induction post with
  | nil => intro d _; rfl
  | cons l rest ih =>
      intro d h
      simp only [List.foldl_cons]
      have hrest : ∀ l' ∈ rest, isEntryFor g l' = false :=
        fun l' hl' => h l' (List.mem_cons_of_mem _ hl')
      rcases hl : parse_line l with _ | s | ⟨g', us⟩
      · rw [ih _ hrest]
        simp [parse_dict_step, hl]
      · rw [ih _ hrest]
        simp [parse_dict_step, hl]
      · have hne : g' ≠ g := by
          have := h l (List.mem_cons_self _ _)
          simp [isEntryFor, hl] at this
          exact this
        rw [ih _ hrest]
        simp only [parse_dict_step, hl]
        exact lookupGroup_dictInsert_other d g' g us hne

/-! The claims. -/

/-- C1: on the four-line input `admin:user1,user2,user3`,
`developers:user2,user4`, `testers:user3,user4,user5`,
`support:user1,user5` with the default threshold 2, the pipeline
(parse, invert/filter, render) produces exactly five report lines, one
per user, with each user's groups in first-appearance order:
user1 → admin, support; user2 → admin, developers; user3 → admin,
testers; user4 → developers, testers; user5 → testers, support; the
run exits 0 with no errors logged. -/
theorem claim_C1_concrete_scenario :
    main_run ⟨"groups.txt", none, 2⟩
      ⟨true, some ["admin:user1,user2,user3", "developers:user2,user4",
                   "testers:user3,user4,user5", "support:user1,user5"], true⟩ =
      { exitCode := 0,
        console := ["User: user1, Groups: admin, support",
                    "User: user2, Groups: admin, developers",
                    "User: user3, Groups: admin, testers",
                    "User: user4, Groups: developers, testers",
                    "User: user5, Groups: testers, support"],
        fileLines := none,
        errors := [] } := by decide

/-- C3: threshold monotonicity — for every group membership mapping and
thresholds `t1 < t2`, every user reported at threshold `t2` is also
reported at threshold `t1`. -/
theorem claim_C3_threshold_monotonicity (gm : GroupMembership) (t1 t2 : Int)
    (hlt : t1 < t2) (u : String)
    (hu : u ∈ (analyze_user_groups gm t2).map Prod.fst) :
    u ∈ (analyze_user_groups gm t1).map Prod.fst := by
  unfold analyze_user_groups at hu ⊢
  rcases List.mem_map.mp hu with ⟨p, hp, rfl⟩
  refine List.mem_map.mpr ⟨p, ?_, rfl⟩
  rcases List.mem_filter.mp hp with ⟨hpi, hcond⟩
  refine List.mem_filter.mpr ⟨hpi, ?_⟩
  simp only [decide_eq_true_eq] at hcond ⊢
  omega

theorem claim_C3_threshold_monotonicity_witness :
    "x" ∈ (analyze_user_groups [("a", ["x"]), ("b", ["x"])] 1).map Prod.fst :=
  claim_C3_threshold_monotonicity [("a", ["x"]), ("b", ["x"])] 1 2 (by decide) "x" (by decide)

/-- C8: fatal pre-flight and open failures — when the group file does
not exist, or it cannot be opened at parse time, or `--min-groups` is
not positive, the run logs an error, exits non-zero, and writes no
report line to the console or to a file. -/
theorem claim_C8_fatal_failures (args : Args) (env : Env)
    (h : env.fileExists = false ∨ args.min_groups ≤ 0 ∨ env.fileContent = none) :
    (main_run args env).exitCode ≠ 0 ∧ (main_run args env).console = [] ∧
    (main_run args env).fileLines = none ∧ (main_run args env).errors ≠ [] := by
  unfold main_run
  rcases h with h | h | h
  · simp [h]
  · by_cases hf : env.fileExists
    · simp [hf, h]
    · simp [hf]
  · by_cases hf : env.fileExists
    · by_cases hm : args.min_groups ≤ 0
      · simp [hf, hm]
      · simp [hf, hm, h]
    · simp [hf]

theorem claim_C8_fatal_failures_witness :
    (main_run ⟨"missing.txt", none, 2⟩ ⟨false, none, true⟩).exitCode ≠ 0 ∧
    (main_run ⟨"missing.txt", none, 2⟩ ⟨false, none, true⟩).console = [] ∧
    (main_run ⟨"missing.txt", none, 2⟩ ⟨false, none, true⟩).fileLines = none ∧
    (main_run ⟨"missing.txt", none, 2⟩ ⟨false, none, true⟩).errors ≠ [] :=
  claim_C8_fatal_failures ⟨"missing.txt", none, 2⟩ ⟨false, none, true⟩ (Or.inl rfl)

/-- C9: output-write failure is non-fatal and has no fallback — when
parsing and filtering succeed but the `--output` file cannot be
written, the writer logs an error, no report line reaches the file or
the console, and the process still exits 0. -/
theorem claim_C9_output_write_failure (args : Args) (env : Env)
    (lines : List String) (path : String)
    (hout : args.output = some path) (hex : env.fileExists = true)
    (hcontent : env.fileContent = some lines) (hmg : 0 < args.min_groups)
    (hw : env.outputWritable = false) :
    (main_run args env).exitCode = 0 ∧
    (main_run args env).fileLines = none ∧
    (main_run args env).console = [] ∧
    "Error writing to output file" ∈ (main_run args env).errors := by
  unfold main_run
  have hmg' : ¬ args.min_groups ≤ 0 := by omega
  simp [hex, hmg', hcontent, write_output, hout, hw]

theorem claim_C9_output_write_failure_witness :
    (main_run ⟨"g.txt", some "out.txt", 2⟩ ⟨true, some ["a:x,y"], false⟩).exitCode = 0 ∧
    (main_run ⟨"g.txt", some "out.txt", 2⟩ ⟨true, some ["a:x,y"], false⟩).fileLines = none ∧
    (main_run ⟨"g.txt", some "out.txt", 2⟩ ⟨true, some ["a:x,y"], false⟩).console = [] ∧
    "Error writing to output file" ∈
      (main_run ⟨"g.txt", some "out.txt", 2⟩ ⟨true, some ["a:x,y"], false⟩).errors :=
  claim_C9_output_write_failure ⟨"g.txt", some "out.txt", 2⟩ ⟨true, some ["a:x,y"], false⟩
    ["a:x,y"] "out.txt" rfl rfl rfl (by decide) rfl

/-- C2: round-trip at threshold 1 — when every member list is
non-empty, filtering at threshold 1 keeps every user occurring in any
group exactly once as a key, with a group list whose multiset is the
multiset of group names of all occurrences of that user (with
multiplicity). -/
theorem claim_C2_roundtrip_threshold_one (gm : GroupMembership)
    (_hne : ∀ p ∈ gm, p.2 ≠ []) (u : String) (hu : ∃ p ∈ gm, u ∈ p.2) :
    ((analyze_user_groups gm 1).map Prod.fst).countP (fun v => decide (v = u)) = 1 ∧
    ∀ gs, (u, gs) ∈ analyze_user_groups gm 1 →
      (gs : Multiset String) = (occurrenceGroups gm u : Multiset String) := by
  rw [analyze_one_eq_invertGroups]
  constructor
  · exact countP_eq_one_of_nodup_of_mem u _ (keys_invertGroups_nodup gm)
      ((mem_keys_invertGroups gm u).mpr hu)
  · intro gs hgs
    have h := getGroups_of_mem_of_nodup _ (keys_invertGroups_nodup gm) u gs hgs
    rw [← h, getGroups_invertGroups]

theorem claim_C2_roundtrip_threshold_one_witness :
    ((analyze_user_groups [("a", ["x"]), ("b", ["x", "y"])] 1).map Prod.fst).countP
      (fun v => decide (v = "x")) = 1 :=
  (claim_C2_roundtrip_threshold_one [("a", ["x"]), ("b", ["x", "y"])]
    (by decide) "x" (by decide)).1

theorem mem_occurrenceGroups_keys (gm : GroupMembership) (u x : String)
    (h : x ∈ occurrenceGroups gm u) : x ∈ gm.map Prod.fst := by
  rcases List.mem_flatMap.mp h with ⟨p, hp, hx⟩
  rcases List.mem_map.mp hx with ⟨_, _, rfl⟩
  exact List.mem_map_of_mem Prod.fst hp

theorem occurrenceGroups_cons (p : String × List String) (rest : GroupMembership)
    (u : String) :
    occurrenceGroups (p :: rest) u =
      ((p.2.filter (fun v => decide (v = u))).map (fun _ => p.1)) ++
        occurrenceGroups rest u := by
  simp [occurrenceGroups]

theorem countP_occurrenceGroups (gm : GroupMembership) (g u : String) (ms : List String)
    (hnodup : (gm.map Prod.fst).Nodup) (hmem : (g, ms) ∈ gm) :
    (occurrenceGroups gm u).countP (fun v => decide (v = g)) =
      ms.countP (fun v => decide (v = u)) := by
  induction gm with
  | nil => simp at hmem
  | cons p rest ih =>
      obtain ⟨pk, pv⟩ := p
      simp only [List.map_cons, List.nodup_cons] at hnodup
      rw [occurrenceGroups_cons, List.countP_append]
      rcases List.mem_cons.mp hmem with heq | hmem'
      · have hk : pk = g := (congrArg Prod.fst heq.symm : pk = g)
        have hv : pv = ms := (congrArg Prod.snd heq.symm : pv = ms)
        subst hk
        subst hv
        have h1 : ((pv.filter (fun v => decide (v = u))).map
              (fun _ => pk)).countP (fun v => decide (v = pk)) =
            pv.countP (fun v => decide (v = u)) := by
          rw [List.countP_eq_length.mpr (by
            intro a ha
            rcases List.mem_map.mp ha with ⟨_, _, rfl⟩
            simp)]
          rw [List.length_map, List.countP_eq_length_filter]
        have h2 : (occurrenceGroups rest u).countP (fun v => decide (v = pk)) = 0 := by
          apply List.countP_eq_zero.mpr
          intro x hx
          simp only [decide_eq_true_eq]
          intro hxg
          exact hnodup.1 (hxg ▸ mem_occurrenceGroups_keys rest u x hx)
        rw [h1, h2]
        simp
      · have hgk : g ∈ rest.map Prod.fst :=
          List.mem_map_of_mem Prod.fst hmem'
        have hne : pk ≠ g := fun h => hnodup.1 (h ▸ hgk)
        have h1 : ((pv.filter (fun v => decide (v = u))).map
              (fun _ => pk)).countP (fun v => decide (v = g)) = 0 := by
          apply List.countP_eq_zero.mpr
          intro x hx
          rcases List.mem_map.mp hx with ⟨_, _, rfl⟩
          simpa using hne
        rw [h1, ih hnodup.2 hmem']
        simp

/-- C5: membership is counted with multiplicity — when a user occurs
more than once in one group's member list (keys of the mapping being
distinct), the inverted group list for that user contains that group
name exactly as many times as the user occurs in it, and the user
qualifies at threshold 2. -/
theorem claim_C5_multiplicity (gm : GroupMembership) (g u : String) (ms : List String)
    (hnodup : (gm.map Prod.fst).Nodup) (hmem : (g, ms) ∈ gm)
    (hk : 1 < ms.countP (fun v => decide (v = u))) :
    (∀ gs, (u, gs) ∈ invertGroups gm →
      gs.countP (fun v => decide (v = g)) = ms.countP (fun v => decide (v = u))) ∧
    u ∈ (analyze_user_groups gm 2).map Prod.fst := by
  have hocc := countP_occurrenceGroups gm g u ms hnodup hmem
  constructor
  · intro gs hgs
    have hgg := getGroups_of_mem_of_nodup _ (keys_invertGroups_nodup gm) u gs hgs
    rw [← hgg, getGroups_invertGroups gm u, hocc]
  · have humem : u ∈ (invertGroups gm).map Prod.fst := by
      apply (mem_keys_invertGroups gm u).mpr
      have hpos : 0 < ms.countP (fun v => decide (v = u)) := by omega
      rcases List.countP_pos_iff.mp hpos with ⟨a, ha, hau⟩
      simp only [decide_eq_true_eq] at hau
      exact ⟨(g, ms), hmem, hau ▸ ha⟩
    have hentry := mem_getGroups_of_mem_keys _ u humem
    have hlen : 2 ≤ (getGroups u (invertGroups gm)).length := by
      rw [getGroups_invertGroups]
      have h1 : ms.countP (fun v => decide (v = u)) ≤ (occurrenceGroups gm u).length := by
        rw [← hocc]
        exact List.countP_le_length _
      omega
    unfold analyze_user_groups
    refine List.mem_map.mpr ⟨(u, getGroups u (invertGroups gm)), ?_, rfl⟩
    refine List.mem_filter.mpr ⟨hentry, ?_⟩
    simp only [decide_eq_true_eq]
    exact_mod_cast hlen

theorem claim_C5_multiplicity_witness :
    "x" ∈ (analyze_user_groups [("a", ["x", "x"])] 2).map Prod.fst :=
  (claim_C5_multiplicity [("a", ["x", "x"])] "a" "x" ["x", "x"]
    (by decide) (by decide) (by decide)).2

/-- C6: duplicate group names, last-write-wins — when a well-formed
line defining group `g` is followed only by lines that do not define
`g`, the parsed mapping holds exactly that line's member list under
`g`, and group names occur at most once as keys of the result. -/
theorem claim_C6_last_write_wins (pre post : List String) (l g : String) (ms : List String)
    (hl : parse_line l = .entry g ms)
    (_hpre : ∃ l0 ∈ pre, isEntryFor g l0 = true)
    (hpost : ∀ l' ∈ post, isEntryFor g l' = false) :
    lookupGroup g (parse_group_file (pre ++ l :: post)).1 = some ms ∧
    (((parse_group_file (pre ++ l :: post)).1).map Prod.fst).Nodup := by
  refine ⟨?_, parse_keys_nodup _⟩
  unfold parse_group_file
  rw [parse_foldl_dict]
  simp only [List.foldl_append, List.foldl_cons]
  rw [lookupGroup_foldl_no_entry post g _ hpost]
  simp only [parse_dict_step, hl]
  exact lookupGroup_dictInsert_self _ g ms

theorem claim_C6_last_write_wins_witness :
    lookupGroup "g" (parse_group_file (["g:a"] ++ "g:b" :: [])).1 = some ["b"] :=
  (claim_C6_last_write_wins ["g:a"] [] "g:b" "g" ["b"] (by decide)
    (by decide) (by decide)).1

/-- C7: empty-member filtering — the line `g:alice,, bob ,` parses to
group `g` with members exactly `["alice", "bob"]`; in general, on a
trimmed non-empty non-comment line with a `:`, the parser splits the
part after the first `:` on `,`, trims each candidate and drops the
ones that become empty. -/
theorem claim_C7_empty_member_filtering :
    parse_group_file ["g:alice,, bob ,"] = ([("g", ["alice", "bob"])], []) ∧
    ∀ (l : String) (gname rest : List Char),
      pyStripList l.data ≠ [] →
      (pyStripList l.data).head? ≠ some '#' →
      splitFirstChar ':' (pyStripList l.data) = some (gname, rest) →
      parse_line l = .entry ⟨pyStripList gname⟩
        ((((splitOnChar ',' rest).map pyStripList).filter (fun u => u ≠ [])).map
          (fun u => (⟨u⟩ : String))) := by
  refine ⟨by decide, ?_⟩
  intro l gname rest h1 h2 hs
  unfold parse_line
  rcases hm : pyStripList l.data with _ | ⟨c, cs⟩
  · exact absurd hm h1
  · rw [hm] at h2 hs
    simp only [parse_line_core]
    have hc : ¬ c = '#' := fun hc => h2 (by rw [hc]; rfl)
    rw [if_neg hc, hs]

theorem claim_C7_empty_member_filtering_witness :
    parse_line "g:alice,, bob ," =
      .entry ⟨pyStripList ['g']⟩
        ((((splitOnChar ',' "alice,, bob ,".data).map pyStripList).filter
            (fun u => u ≠ [])).map (fun u => (⟨u⟩ : String))) :=
  claim_C7_empty_member_filtering.2 "g:alice,, bob ," ['g'] "alice,, bob ,".data
    (by decide) (by decide) (by decide)

/-- C4: malformed-line resilience — on a file whose trimmed lines are
all non-empty and non-comment, with at least one line lacking `:`, the
parser logs one error per colon-free line (in order), the resulting
mapping is the one built from the well-formed lines alone, and the run
still exits 0. -/
theorem claim_C4_malformed_resilience (lines : List String)
    (hgood : ∀ l ∈ lines, pyStripList l.data ≠ [] ∧ (pyStripList l.data).head? ≠ some '#')
    (_hbad : ∃ l ∈ lines, ':' ∉ l.data)
    (gf : String) (out : Option String) (wr : Bool) :
    (parse_group_file lines).2 =
      (lines.filter (fun l => decide (':' ∉ l.data))).map
        (fun l => "Invalid line format in group file: " ++ pyStrip l) ∧
    (parse_group_file lines).1 =
      (parse_group_file (lines.filter (fun l => decide (':' ∈ l.data)))).1 ∧
    (main_run ⟨gf, out, 2⟩ ⟨true, some lines, wr⟩).exitCode = 0 := by
  have hpoint : ∀ l ∈ lines, isMalformedLine l = decide (':' ∉ l.data) := by
    intro l hl
    obtain ⟨h1, h2⟩ := hgood l hl
    by_cases hc : ':' ∈ l.data
    · rcases (parse_line_colon_cases l h1 h2).2 hc with ⟨g, us, he⟩
      simp [isMalformedLine, he, hc]
    · have hm := (parse_line_colon_cases l h1 h2).1 hc
      simp [isMalformedLine, hm, hc]
  refine ⟨?_, ?_, ?_⟩
  · unfold parse_group_file
    rw [parse_foldl_errors]
    rw [List.filter_congr hpoint]
    simp
  · unfold parse_group_file
    rw [parse_foldl_dict, parse_foldl_dict, parse_dict_drop_malformed]
    have hpoint' : ∀ l ∈ lines, (!isMalformedLine l) = decide (':' ∈ l.data) := by
      intro l hl
      rw [hpoint l hl]
      by_cases hc : ':' ∈ l.data <;> simp [hc]
    rw [List.filter_congr hpoint']
  · unfold main_run
    simp

theorem claim_C4_malformed_resilience_witness :
    (parse_group_file ["a:x", "bad"]).2 =
      ((["a:x", "bad"].filter (fun l => decide (':' ∉ l.data))).map
        (fun l => "Invalid line format in group file: " ++ pyStrip l)) ∧
    (parse_group_file ["a:x", "bad"]).1 =
      (parse_group_file (["a:x", "bad"].filter (fun l => decide (':' ∈ l.data)))).1 ∧
    (main_run ⟨"g.txt", none, 2⟩ ⟨true, some ["a:x", "bad"], true⟩).exitCode = 0 :=
  claim_C4_malformed_resilience ["a:x", "bad"] (by decide) (by decide) "g.txt" none true

/-- C10 (implicit): deterministic user order — for every mapping and
threshold, the filter stage returns the qualifying users exactly in
order of first appearance (traversing groups in stored order and each
member list left to right), each paired with its full occurrence
group list, and the report writer emits one line per user in exactly
that order, on the console or in the output file. -/
theorem claim_C10_deterministic_order (gm : GroupMembership) (t : Int)
    (wr : Bool) (path : String) :
    (analyze_user_groups gm t).map Prod.fst =
      (firstSeen [] (gm.flatMap Prod.snd)).filter
        (fun u => decide (t ≤ ((occurrenceGroups gm u).length : Int))) ∧
    (write_output (analyze_user_groups gm t) none wr).console =
      ((firstSeen [] (gm.flatMap Prod.snd)).filter
        (fun u => decide (t ≤ ((occurrenceGroups gm u).length : Int)))).map
        (fun u => "User: " ++ u ++ ", Groups: " ++ joinCommaSpace (occurrenceGroups gm u)) ∧
    (write_output (analyze_user_groups gm t) (some path) true).fileLines =
      some (((firstSeen [] (gm.flatMap Prod.snd)).filter
        (fun u => decide (t ≤ ((occurrenceGroups gm u).length : Int)))).map
        (fun u => "User: " ++ u ++ ", Groups: " ++ joinCommaSpace (occurrenceGroups gm u))) := by
  have hmain : ∀ (α : Type) (f : String × List String → α),
      (analyze_user_groups gm t).map f =
        ((firstSeen [] (gm.flatMap Prod.snd)).filter
          (fun u => decide (t ≤ ((occurrenceGroups gm u).length : Int)))).map
          (fun u => f (u, occurrenceGroups gm u)) := by
    intro α f
    unfold analyze_user_groups
    rw [map_filter_eq_of_nodup f _ _ (keys_invertGroups_nodup gm)]
    simp only [getGroups_invertGroups]
    rw [keys_invertGroups_firstSeen]
  refine ⟨?_, ?_, ?_⟩
  · rw [hmain String Prod.fst]
    simp
  · show ((analyze_user_groups gm t).map renderLine) = _
    rw [hmain String renderLine]
    simp [renderLine]
  · show (some ((analyze_user_groups gm t).map renderLine) : Option (List String)) = _
    rw [hmain String renderLine]
    simp [renderLine]

end PA
